import Mathlib

/-!
Shallow embedding of `src/analysis.py` (semiconductor production analysis).

The script loads a CSV of production records, groups them by date with
summed chip counts and a rounded defect percentage (`process_data`),
prints dates whose defect percentage exceeds 5 (`analyze_defective_percentage`),
computes mean and population standard deviation of the produced column
(`calculate_statistics`), and runs three categorical breakdowns over the raw
records (`additional_analysis`).

Modelling choices:
* dates and categorical values are encoded as natural numbers
  (ISO dates such as `2024-01-01` as `20240101`, which preserves the
  lexicographic order pandas sorts them by);
* chip counts are natural numbers (pandas reads them as non-negative int64);
* a float-valued percentage cell is a `PctVal`: a finite rational, IEEE NaN
  (`PctVal.undef`, what pandas produces for `0 / 0`), or +infinity
  (`PctVal.inf`, what pandas produces for `d / 0` with `d > 0`);
* `.round(2)` is round-half-to-even at two decimal places, on exact rationals;
* `pandas.groupby(key)` iterates the distinct key values in ascending order
  (`sort=True` is the pandas default), modelled by `sortedKeys`;
* `np.std` (population standard deviation, `ddof = 0`) is the square root of
  the population variance; since the square root of a rational is irrational
  in general, `calculate_statistics` carries the variance (the square of the
  standard deviation), which determines it.
-/

namespace SemiconductorAnalysis

/-- One raw CSV row: a production record. -/
structure Record where
  date : Nat
  produced_chips : Nat
  defective_chips : Nat
  wafer_size : Nat
  shift : Nat
  machine_id : Nat
deriving DecidableEq, Repr

/-- Value of a float-valued percentage cell: IEEE NaN, +infinity, or a
finite rational. -/
inductive PctVal where
  | undef : PctVal
  | inf : PctVal
  | val : ℚ → PctVal
deriving DecidableEq, Repr

/-- Round a rational to the nearest integer, ties to even
(the rounding numpy and pandas use). -/
def roundHalfEven (q : ℚ) : ℤ :=
  if q - q.floor < 1 / 2 then q.floor
  else if 1 / 2 < q - q.floor then q.floor + 1
  else if q.floor % 2 = 0 then q.floor else q.floor + 1

/-- `Series.round(2)`: round to two decimal places, ties to even. -/
def round2 (q : ℚ) : ℚ := (roundHalfEven (q * 100) : ℚ) / 100

/-- `(defective / produced) * 100` followed by `.round(2)`, with the pandas
semantics at a zero denominator: `0 / 0` is NaN, `d / 0` with `d > 0` is
+infinity, and `.round(2)` leaves NaN and infinity unchanged. -/
def pctOf (d p : Nat) : PctVal :=
  if p = 0 then (if d = 0 then PctVal.undef else PctVal.inf)
  else PctVal.val (round2 ((d : ℚ) / (p : ℚ) * 100))

/-- Insert a key into a strictly sorted list of keys, keeping it strictly
sorted (duplicates collapse). -/
def insertKey (a : Nat) : List Nat → List Nat
  | [] => [a]
  | b :: bs =>
    if a < b then a :: b :: bs
    else if a = b then b :: bs
    else b :: insertKey a bs

/-- The distinct values of a key column in ascending order: the group keys
`pandas.groupby` (with its default `sort=True`) iterates over. -/
def sortedKeys (l : List Nat) : List Nat := l.foldr insertKey []

/-- Sum of a measure column over the rows of one group:
`data.groupby(key)[column].sum()` evaluated at group key `k`. -/
def groupSum (key : Record → Nat) (f : Record → Nat) (rs : List Record)
    (k : Nat) : Nat :=
  ((rs.filter (fun r => key r == k)).map f).sum

/-- One row of the Daily Aggregate produced by `process_data`. -/
structure AggRow where
  date : Nat
  produced_chips : Nat
  defective_chips : Nat
  defective_percentage : PctVal
deriving DecidableEq, Repr

/-- The aggregate row `process_data` builds for group key `d`. -/
def mkAggRow (rs : List Record) (d : Nat) : AggRow :=
  { date := d
    produced_chips := groupSum (fun r => r.date) (fun r => r.produced_chips) rs d
    defective_chips := groupSum (fun r => r.date) (fun r => r.defective_chips) rs d
    defective_percentage :=
      pctOf (groupSum (fun r => r.date) (fun r => r.defective_chips) rs d)
            (groupSum (fun r => r.date) (fun r => r.produced_chips) rs d) }

/-- `process_data`: group by date, sum `produced_chips` and `defective_chips`
per group, then add `defective_percentage = (defective / produced * 100).round(2)`. -/
def process_data (rs : List Record) : List AggRow :=
  (sortedKeys (rs.map (fun r => r.date))).map (mkAggRow rs)

/-- The comparison `row["defective_percentage"] > 5` on a float cell:
false for NaN, true for +infinity. -/
def pctExceeds5 : PctVal → Bool
  | PctVal.undef => false
  | PctVal.inf => true
  | PctVal.val q => decide (5 < q)

/-- `analyze_defective_percentage`: one printed notice per aggregate row whose
`defective_percentage` exceeds 5, in row order; the notice carries the row's
date and its (already rounded) percentage, printed with format `.2f`. -/
def analyze_defective_percentage (g : List AggRow) : List (Nat × PctVal) :=
  (g.filter (fun row => pctExceeds5 row.defective_percentage)).map
    (fun row => (row.date, row.defective_percentage))

/-- One breakdown of `additional_analysis`:
`(data.groupby(key)["defective_chips"].sum() / data.groupby(key)["produced_chips"].sum() * 100).round(2)`,
a series indexed by the distinct key values in ascending order. -/
def breakdownBy (key : Record → Nat) (rs : List Record) : List (Nat × PctVal) :=
  (sortedKeys (rs.map key)).map (fun k =>
    (k, pctOf (groupSum key (fun r => r.defective_chips) rs k)
              (groupSum key (fun r => r.produced_chips) rs k)))

/-- `additional_analysis`: the three independent breakdowns of the raw
records, by wafer size, by shift, and by machine. -/
def additional_analysis (rs : List Record) :
    List (Nat × PctVal) × List (Nat × PctVal) × List (Nat × PctVal) :=
  (breakdownBy (fun r => r.wafer_size) rs,
   breakdownBy (fun r => r.shift) rs,
   breakdownBy (fun r => r.machine_id) rs)

/-- `np.mean` of a column. -/
def npMean (xs : List ℚ) : ℚ := xs.sum / xs.length

/-- The square of `np.std` of a column: the population variance
(`ddof = 0`, divisor `N`). -/
def npVariance (xs : List ℚ) : ℚ :=
  ((xs.map (fun x => (x - npMean xs) ^ 2)).sum) / xs.length

/-- The `produced_chips` column of the Daily Aggregate, as rationals. -/
def producedColumn (g : List AggRow) : List ℚ :=
  g.map (fun row => (row.produced_chips : ℚ))

/-- `calculate_statistics`: `(np.mean, np.std)` of `produced_chips`.
`np.std` is carried as its square, the population variance. -/
def calculate_statistics (g : List AggRow) : ℚ × ℚ :=
  (npMean (producedColumn g), npVariance (producedColumn g))

/-- The state of the input file `read_data` is pointed at: missing, present
but empty, present but not parseable as CSV, or parseable with these rows. -/
inductive FileState where
  | missing : FileState
  | empty : FileState
  | malformed : FileState
  | ok : List Record → FileState
deriving DecidableEq

/-- `read_data`: returns the parsed rows, or `none` after printing an error
message for each of the three caught exceptions (`FileNotFoundError`,
`EmptyDataError`, `ParserError`). -/
def read_data : FileState → Option (List Record)
  | FileState.missing => none
  | FileState.empty => none
  | FileState.malformed => none
  | FileState.ok rows => some rows

/-- What the `__main__` block produced: `none` / `false` components mean the
corresponding step never ran. -/
structure MainRun where
  grouped : Option (List AggRow)
  chartShown : Bool
  savedFile : Option (List AggRow)
  stats : Option (ℚ × ℚ)
  anomalies : Option (List (Nat × PctVal))
  breakdowns : Option (List (Nat × PctVal) × List (Nat × PctVal) × List (Nat × PctVal))
deriving DecidableEq

/-- The run in which nothing after the load happened. -/
def idleRun : MainRun :=
  { grouped := none, chartShown := false, savedFile := none,
    stats := none, anomalies := none, breakdowns := none }

/-- The `__main__` block: load, and only when the load returned data, run the
whole pipeline (chart, CSV write, statistics, anomaly scan, breakdowns). -/
def main_script (fs : FileState) : MainRun :=
  match read_data fs with
  | none => idleRun
  | some rows =>
    let g := process_data rows
    { grouped := some g
      chartShown := true
      savedFile := some g
      stats := some (calculate_statistics g)
      anomalies := some (analyze_defective_percentage g)
      breakdowns := some (additional_analysis rows) }

/-! ### Supporting lemmas -/

attribute [local semireducible] Rat.mul Rat.inv Rat.add Rat.sub

theorem insertKey_cons_lt {a c : Nat} (cs : List Nat) (h : a < c) :
    insertKey a (c :: cs) = a :: c :: cs := by
  simp [insertKey, h]

theorem insertKey_cons_eq (a : Nat) (cs : List Nat) :
    insertKey a (a :: cs) = a :: cs := by
  simp [insertKey]

theorem insertKey_cons_gt {a c : Nat} (cs : List Nat) (h : c < a) :
    insertKey a (c :: cs) = c :: insertKey a cs := by
  have h2 : ¬a < c := by omega
  have h3 : a ≠ c := by omega
  simp [insertKey, h2, h3]

theorem mem_insertKey (a : Nat) (l : List Nat) (b : Nat) :
    b ∈ insertKey a l ↔ b = a ∨ b ∈ l := by
  induction l with
  | nil => simp [insertKey]
  | cons c cs ih =>
    rcases Nat.lt_trichotomy a c with h1 | h1 | h1
    · rw [insertKey_cons_lt cs h1]
      simp [List.mem_cons]
    · subst h1
      rw [insertKey_cons_eq]
      simp only [List.mem_cons]
      tauto
    · rw [insertKey_cons_gt cs h1]
      simp only [List.mem_cons, ih]
      tauto

theorem sorted_insertKey (a : Nat) (l : List Nat) (h : l.Sorted (· < ·)) :
    (insertKey a l).Sorted (· < ·) := by
  induction l with
  | nil => simp [insertKey]
  | cons c cs ih =>
    rw [List.sorted_cons] at h
    rcases Nat.lt_trichotomy a c with h1 | h1 | h1
    · rw [insertKey_cons_lt cs h1, List.sorted_cons]
      refine ⟨?_, List.sorted_cons.mpr h⟩
      intro b hb
      rcases List.mem_cons.mp hb with rfl | hb
      · exact h1
      · exact lt_trans h1 (h.1 b hb)
    · subst h1
      rw [insertKey_cons_eq]
      exact List.sorted_cons.mpr h
    · rw [insertKey_cons_gt cs h1, List.sorted_cons]
      refine ⟨?_, ih h.2⟩
      intro b hb
      rcases (mem_insertKey a cs b).mp hb with rfl | hb
      · exact h1
      · exact h.1 b hb

theorem sorted_sortedKeys (l : List Nat) : (sortedKeys l).Sorted (· < ·) := by
  induction l with
  | nil => simp [sortedKeys]
  | cons a as ih => exact sorted_insertKey a _ ih

theorem nodup_sortedKeys (l : List Nat) : (sortedKeys l).Nodup :=
  (sorted_sortedKeys l).nodup

theorem mem_sortedKeys (l : List Nat) (b : Nat) : b ∈ sortedKeys l ↔ b ∈ l := by
  induction l with
  | nil => simp [sortedKeys]
  | cons a as ih =>
    show b ∈ insertKey a (sortedKeys as) ↔ _
    rw [mem_insertKey]
    simp [ih]

theorem sum_map_addFn {α : Type} (f g : α → Nat) (l : List α) :
    (l.map (fun x => f x + g x)).sum = (l.map f).sum + (l.map g).sum := by
  induction l with
  | nil => rfl
  | cons x xs ih =>
    simp only [List.map_cons, List.sum_cons, ih]
    omega

theorem sum_map_zero (ds : List Nat) (a : Nat) (c : Nat) (ha : a ∉ ds) :
    (ds.map (fun d => if a == d then c else 0)).sum = 0 := by
  induction ds with
  | nil => rfl
  | cons d ds ih =>
    have h1 : a ≠ d := fun h => ha (h ▸ List.mem_cons_self d ds)
    have h2 : a ∉ ds := fun h => ha (List.mem_cons_of_mem d h)
    rw [List.map_cons, List.sum_cons, if_neg (by simp [h1]), Nat.zero_add, ih h2]

theorem sum_map_single (ds : List Nat) (a : Nat) (c : Nat) (hnd : ds.Nodup)
    (ha : a ∈ ds) :
    (ds.map (fun d => if a == d then c else 0)).sum = c := by
  induction ds with
  | nil => cases ha
  | cons d ds ih =>
    rcases List.mem_cons.mp ha with rfl | hmem
    · have hnot : a ∉ ds := (List.nodup_cons.mp hnd).1
      rw [List.map_cons, List.sum_cons, if_pos (by simp), sum_map_zero ds a c hnot,
        Nat.add_zero]
    · have hne : a ≠ d := by
        rintro rfl
        exact (List.nodup_cons.mp hnd).1 hmem
      rw [List.map_cons, List.sum_cons, if_neg (by simp [hne]), Nat.zero_add,
        ih (List.nodup_cons.mp hnd).2 hmem]

theorem groupSum_cons (key : Record → Nat) (f : Record → Nat) (r : Record)
    (rs : List Record) (k : Nat) :
    groupSum key f (r :: rs) k
      = (if key r == k then f r else 0) + groupSum key f rs k := by
  by_cases h : key r == k
  · simp [groupSum, List.filter_cons, h]
  · simp [groupSum, List.filter_cons, h]

theorem sum_groupSum (key : Record → Nat) (f : Record → Nat) (rs : List Record)
    (ds : List Nat) (hnd : ds.Nodup) (hcov : ∀ r ∈ rs, key r ∈ ds) :
    (ds.map (fun k => groupSum key f rs k)).sum = (rs.map f).sum := by
  induction rs with
  | nil => simp [groupSum]
  | cons r rs ih =>
    have hc : ∀ x ∈ rs, key x ∈ ds := fun x hx => hcov x (List.mem_cons_of_mem r hx)
    have h1 : (ds.map (fun k => groupSum key f (r :: rs) k)).sum
        = (ds.map (fun k => (if key r == k then f r else 0) + groupSum key f rs k)).sum := by
      simp only [groupSum_cons]
    rw [h1, sum_map_addFn, sum_map_single ds (key r) (f r) hnd
          (hcov r (List.mem_cons_self r rs)), ih hc]
    simp

theorem filter_map_comm {α β : Type} (l : List α) (f : α → β) (p : β → Bool) :
    (l.map f).filter p = (l.filter (fun a => p (f a))).map f := by
  induction l with
  | nil => rfl
  | cons x xs ih =>
    by_cases h : p (f x)
    · simp [List.filter_cons, h, ih]
    · simp [List.filter_cons, h, ih]

theorem map_mkAggRow_date (rs : List Record) (l : List Nat) :
    (l.map (mkAggRow rs)).map (fun row => row.date) = l := by
  induction l with
  | nil => rfl
  | cons x xs ih =>
    simp only [List.map_cons, ih]
    rfl

theorem process_data_dates (rs : List Record) :
    (process_data rs).map (fun row => row.date)
      = sortedKeys (rs.map (fun r => r.date)) := by
  rw [process_data, map_mkAggRow_date]

theorem mem_process_data_fields (rs : List Record) (row : AggRow)
    (h : row ∈ process_data rs) :
    row.produced_chips = groupSum (fun r => r.date) (fun r => r.produced_chips) rs row.date ∧
    row.defective_chips = groupSum (fun r => r.date) (fun r => r.defective_chips) rs row.date ∧
    row.defective_percentage = pctOf row.defective_chips row.produced_chips := by
  rcases List.mem_map.mp h with ⟨d, hd, hrow⟩
  subst hrow
  exact ⟨rfl, rfl, rfl⟩

theorem mem_process_data_date (rs : List Record) (row : AggRow)
    (h : row ∈ process_data rs) :
    row.date ∈ rs.map (fun r => r.date) := by
  rcases List.mem_map.mp h with ⟨d, hd, hrow⟩
  subst hrow
  exact (mem_sortedKeys _ _).mp hd

theorem pctOf_val (d p : Nat) (q : ℚ) (h : pctOf d p = PctVal.val q) :
    ∃ z : ℤ, q = (z : ℚ) / 100 := by
  by_cases hp : p = 0
  · by_cases hd : d = 0 <;> simp [pctOf, hp, hd] at h
  · simp only [pctOf, if_neg hp] at h
    refine ⟨roundHalfEven ((d : ℚ) / (p : ℚ) * 100 * 100), ?_⟩
    rw [← PctVal.val.inj h, round2]

/-! ### Sample data used by witnesses and counterexamples -/

/-- The worked scenario of the spec: two rows on `2024-01-01`, one on
`2024-01-02` (the categorical columns are arbitrary). -/
def c7rs : List Record :=
  [⟨20240101, 100, 6, 200, 1, 1⟩, ⟨20240101, 50, 2, 200, 1, 1⟩,
   ⟨20240102, 80, 1, 200, 1, 1⟩]

/-- The first Daily Aggregate row of the worked scenario. -/
def c7row1 : AggRow := ⟨20240101, 150, 8, PctVal.val (533 / 100)⟩

/-- One record whose date group has `produced_chips = 0` but
`defective_chips = 3`. -/
def c2rs : List Record := [⟨20240101, 0, 3, 200, 1, 7⟩]

/-- One record whose raw defect ratio is exactly 5.004 percent. -/
def c9rs : List Record := [⟨20240101, 25000, 1251, 200, 1, 1⟩]

/-- The aggregate row of `c9rs`: 5.004 rounds to 5.00. -/
def c9row : AggRow := ⟨20240101, 25000, 1251, PctVal.val 5⟩

/-- Two records giving one wafer-size group with sums `0 / 0` and another
with sums `5 / 0`. -/
def c10rs : List Record :=
  [⟨20240101, 0, 0, 200, 1, 1⟩, ⟨20240102, 0, 5, 300, 1, 1⟩]

/-! ### Claims -/

/-- Claim C1: for every input table, the Daily Aggregate produced by
`process_data` has exactly one row per distinct date value of the input
(its date column is duplicate-free and carries exactly the input's dates),
the aggregate's `produced_chips` and `defective_chips` columns sum to the
input's column totals, and each row's two counts are the sums over the
input rows of that row's date. -/
theorem C1_daily_aggregate_partition (rs : List Record) :
    ((process_data rs).map (fun row => row.date)).Nodup ∧
    (∀ d, d ∈ (process_data rs).map (fun row => row.date)
      ↔ d ∈ rs.map (fun r => r.date)) ∧
    ((process_data rs).map (fun row => row.produced_chips)).sum
      = (rs.map (fun r => r.produced_chips)).sum ∧
    ((process_data rs).map (fun row => row.defective_chips)).sum
      = (rs.map (fun r => r.defective_chips)).sum ∧
    (∀ row ∈ process_data rs,
      row.produced_chips
        = groupSum (fun r => r.date) (fun r => r.produced_chips) rs row.date ∧
      row.defective_chips
        = groupSum (fun r => r.date) (fun r => r.defective_chips) rs row.date) := by
  have hdates := process_data_dates rs
  have hnd : (sortedKeys (rs.map (fun r => r.date))).Nodup := nodup_sortedKeys _
  have hcov : ∀ r ∈ rs, r.date ∈ sortedKeys (rs.map (fun r => r.date)) :=
    fun r hr => (mem_sortedKeys _ _).mpr (List.mem_map_of_mem _ hr)
  refine ⟨?_, ?_, ?_, ?_, ?_⟩
  · rw [hdates]
    exact hnd
  · intro d
    rw [hdates]
    exact mem_sortedKeys _ d
  · have hmap : (process_data rs).map (fun row => row.produced_chips)
        = (sortedKeys (rs.map (fun r => r.date))).map
            (fun k => groupSum (fun r => r.date) (fun r => r.produced_chips) rs k) := by
      rw [process_data, List.map_map]
      rfl
    rw [hmap]
    exact sum_groupSum _ _ rs _ hnd hcov
  · have hmap : (process_data rs).map (fun row => row.defective_chips)
        = (sortedKeys (rs.map (fun r => r.date))).map
            (fun k => groupSum (fun r => r.date) (fun r => r.defective_chips) rs k) := by
      rw [process_data, List.map_map]
      rfl
    rw [hmap]
    exact sum_groupSum _ _ rs _ hnd hcov
  · intro row hrow
    obtain ⟨h1, h2, _⟩ := mem_process_data_fields rs row hrow
    exact ⟨h1, h2⟩

/-- Witness for C1 at the worked scenario: the produced totals agree
(230 on both sides) and the `2024-01-01` row carries that date's sums. -/
theorem C1_daily_aggregate_partition_witness :
    ((process_data c7rs).map (fun row => row.produced_chips)).sum
        = (c7rs.map (fun r => r.produced_chips)).sum ∧
    c7row1.produced_chips
        = groupSum (fun r => r.date) (fun r => r.produced_chips) c7rs c7row1.date ∧
    c7row1.defective_chips
        = groupSum (fun r => r.date) (fun r => r.defective_chips) c7rs c7row1.date := by
  have h := C1_daily_aggregate_partition c7rs
  have h5 := h.2.2.2.2 c7row1 (by decide)
  exact ⟨h.2.2.1, h5.1, h5.2⟩

/-- Claim C8: the Daily Aggregate rows appear in strictly ascending order
of the date key, with no duplicate date. -/
theorem C8_dates_ascending (rs : List Record) :
    ((process_data rs).map (fun row => row.date)).Sorted (· < ·) ∧
    ((process_data rs).map (fun row => row.date)).Nodup := by
  rw [process_data_dates rs]
  exact ⟨sorted_sortedKeys _, nodup_sortedKeys _⟩

/-- Counterexample to C2 as stated: on the input whose single date group
sums to `produced_chips = 0` and `defective_chips = 3`, `process_data`
stores +infinity (pandas `3 / 0`) in `defective_percentage`, which is not
the NaN "undefined" marker. -/
theorem C2_counterexample :
    (process_data c2rs).map (fun row => row.defective_percentage) = [PctVal.inf] ∧
    PctVal.inf ≠ PctVal.undef := by
  exact ⟨by decide, by decide⟩

/-- Claim C2 (amended): every aggregate row with a nonzero produced sum has
`defective_percentage = round2(defective / produced * 100)`; a row whose
produced sum is 0 gets the non-raising value NaN when its defective sum is
also 0, and +infinity when its defective sum is positive. -/
theorem C2_rounded_percentage (rs : List Record) (row : AggRow)
    (hrow : row ∈ process_data rs) :
    (row.produced_chips ≠ 0 →
      row.defective_percentage
        = PctVal.val (round2
            ((row.defective_chips : ℚ) / (row.produced_chips : ℚ) * 100))) ∧
    (row.produced_chips = 0 → row.defective_chips = 0 →
      row.defective_percentage = PctVal.undef) ∧
    (row.produced_chips = 0 → row.defective_chips ≠ 0 →
      row.defective_percentage = PctVal.inf) := by
  obtain ⟨_, _, hpct⟩ := mem_process_data_fields rs row hrow
  refine ⟨?_, ?_, ?_⟩
  · intro hne
    rw [hpct]
    simp only [pctOf, if_neg hne]
  · intro h0 hd0
    rw [hpct]
    simp only [pctOf, if_pos h0, if_pos hd0]
  · intro h0 hdne
    rw [hpct]
    simp only [pctOf, if_pos h0, if_neg hdne]

/-- Witness for C2 (amended) at the worked scenario: the `2024-01-01` row's
stored percentage is the rounded `8 / 150 * 100`. -/
theorem C2_rounded_percentage_witness :
    c7row1.defective_percentage
      = PctVal.val (round2
          ((c7row1.defective_chips : ℚ) / (c7row1.produced_chips : ℚ) * 100)) :=
  (C2_rounded_percentage c7rs c7row1 (by decide)).1 (by decide)

/-- Claim C7: on the spec's worked scenario, `process_data` returns exactly
the two expected aggregate rows (5.33 and 1.25 percent), and the anomaly
scanner flags `2024-01-01` and not `2024-01-02`. -/
theorem C7_worked_scenario :
    process_data c7rs
      = [⟨20240101, 150, 8, PctVal.val (533 / 100)⟩,
         ⟨20240102, 80, 1, PctVal.val (125 / 100)⟩] ∧
    analyze_defective_percentage (process_data c7rs)
      = [(20240101, PctVal.val (533 / 100))] ∧
    pctExceeds5 (PctVal.val (533 / 100)) = true ∧
    pctExceeds5 (PctVal.val (125 / 100)) = false := by
  refine ⟨by decide, by decide, by decide, by decide⟩

/-- Claim C3: the anomaly scanner output is exactly the aggregate rows whose
`defective_percentage` exceeds 5, in the aggregate's order (the output is
the flag-filter of the row list mapped to notices), each notice carries the
row's date and percentage, and every finite reported percentage is an exact
multiple of 1/100 (so `.2f` prints it exactly). -/
theorem C3_anomaly_scanner_exact (rs : List Record) :
    (analyze_defective_percentage (process_data rs)
      = ((process_data rs).map
          (fun row => (row.date, row.defective_percentage))).filter
            (fun x => pctExceeds5 x.2)) ∧
    (∀ x ∈ analyze_defective_percentage (process_data rs),
      pctExceeds5 x.2 = true ∧
      ∃ row ∈ process_data rs, (row.date, row.defective_percentage) = x) ∧
    (∀ x ∈ analyze_defective_percentage (process_data rs), ∀ q : ℚ,
      x.2 = PctVal.val q → ∃ z : ℤ, q = (z : ℚ) / 100) := by
  refine ⟨?_, ?_, ?_⟩
  · show ((process_data rs).filter
          (fun row => pctExceeds5 row.defective_percentage)).map
        (fun row => (row.date, row.defective_percentage)) = _
    exact (filter_map_comm (process_data rs)
      (fun row => (row.date, row.defective_percentage))
      (fun x => pctExceeds5 x.2)).symm
  · intro x hx
    rcases List.mem_map.mp hx with ⟨row, hrowf, heq⟩
    obtain ⟨hrowmem, hflag⟩ := List.mem_filter.mp hrowf
    constructor
    · rw [← heq]
      exact hflag
    · exact ⟨row, hrowmem, heq⟩
  · intro x hx q hq
    rcases List.mem_map.mp hx with ⟨row, hrowf, heq⟩
    obtain ⟨hrowmem, _⟩ := List.mem_filter.mp hrowf
    obtain ⟨_, _, hpct⟩ := mem_process_data_fields rs row hrowmem
    apply pctOf_val row.defective_chips row.produced_chips q
    rw [← hpct]
    have h2 : row.defective_percentage = x.2 := by rw [← heq]
    rw [h2]
    exact hq

/-- Witness for C3 at the worked scenario: the scanner output is the
flag-filtered row list, and the one reported notice is flagged. -/
theorem C3_anomaly_scanner_exact_witness :
    (analyze_defective_percentage (process_data c7rs)
      = ((process_data c7rs).map
          (fun row => (row.date, row.defective_percentage))).filter
            (fun x => pctExceeds5 x.2)) ∧
    pctExceeds5 (20240101, PctVal.val (533 / 100)).2 = true := by
  have h := C3_anomaly_scanner_exact c7rs
  exact ⟨h.1, (h.2.1 (20240101, PctVal.val (533 / 100)) (by decide)).1⟩

/-- Claim C9: the scanner compares the already-rounded percentage with 5:
an aggregate row with a nonzero produced sum is reported iff
`round2(defective / produced * 100) > 5`; the witness shows the raw ratio
5.004 percent rounding to 5.00 and not being reported. -/
theorem C9_threshold_compares_rounded (rs : List Record) (row : AggRow)
    (hrow : row ∈ process_data rs) (hp : row.produced_chips ≠ 0) :
    (row.date, row.defective_percentage)
        ∈ analyze_defective_percentage (process_data rs)
      ↔ 5 < round2 ((row.defective_chips : ℚ) / (row.produced_chips : ℚ) * 100) := by
  obtain ⟨_, _, hpct⟩ := mem_process_data_fields rs row hrow
  have hval : row.defective_percentage
      = PctVal.val (round2
          ((row.defective_chips : ℚ) / (row.produced_chips : ℚ) * 100)) := by
    rw [hpct]
    simp only [pctOf, if_neg hp]
  constructor
  · intro hmem
    rcases List.mem_map.mp hmem with ⟨row2, hrow2f, heq⟩
    have hflag : pctExceeds5 row2.defective_percentage = true :=
      (List.mem_filter.mp hrow2f).2
    have hpcteq : row2.defective_percentage = row.defective_percentage := by
      have h3 := congrArg Prod.snd heq
      simpa using h3
    rw [hpcteq, hval] at hflag
    simpa [pctExceeds5] using hflag
  · intro hlt
    apply List.mem_map.mpr
    refine ⟨row, List.mem_filter.mpr ⟨hrow, ?_⟩, rfl⟩
    rw [hval]
    simpa [pctExceeds5] using hlt

/-- Witness for C9: on the single-group input with ratio 5.004 percent, the
reporting criterion reduces to `5 < round2(5.004) = 5.00`, which fails, so
nothing is reported although the raw ratio exceeds 5. -/
theorem C9_threshold_compares_rounded_witness :
    ((c9row.date, c9row.defective_percentage)
        ∈ analyze_defective_percentage (process_data c9rs)
      ↔ 5 < round2 ((c9row.defective_chips : ℚ) / (c9row.produced_chips : ℚ) * 100)) ∧
    analyze_defective_percentage (process_data c9rs) = [] ∧
    5 < (c9row.defective_chips : ℚ) / (c9row.produced_chips : ℚ) * 100 :=
  ⟨C9_threshold_compares_rounded c9rs c9row (by decide) (by decide),
   by decide, by decide⟩

/-- Claim C4: when the loader reports any of its three failure conditions
(missing, empty, or unparseable file) it returns no data, and the main
script then runs nothing downstream: no aggregation, no chart, no output
file, no statistics, no anomaly scan, no breakdowns. -/
theorem C4_failure_skips_pipeline (fs : FileState)
    (h : fs = FileState.missing ∨ fs = FileState.empty ∨ fs = FileState.malformed) :
    read_data fs = none ∧ main_script fs = idleRun := by
  rcases h with rfl | rfl | rfl <;> exact ⟨rfl, rfl⟩

/-- Witness for C4 at the missing-file state. -/
theorem C4_failure_skips_pipeline_witness :
    read_data FileState.missing = none ∧ main_script FileState.missing = idleRun :=
  C4_failure_skips_pipeline FileState.missing (Or.inl rfl)

/-- Claim C5: `additional_analysis` is the triple of independent groupings
of the raw ungrouped records by wafer size, shift, and machine; for any key
function, every reported pair carries a key value present in the input and
the value `pctOf` of that group's summed counts, which for a group with
nonzero produced sum is `round2(sum defective / sum produced * 100)`; and
every present key value gets a reported pair. -/
theorem C5_category_breakdowns (rs : List Record) :
    additional_analysis rs
      = (breakdownBy (fun r => r.wafer_size) rs,
         breakdownBy (fun r => r.shift) rs,
         breakdownBy (fun r => r.machine_id) rs) ∧
    (∀ key : Record → Nat, ∀ k v, (k, v) ∈ breakdownBy key rs →
      k ∈ rs.map key ∧
      v = pctOf (groupSum key (fun r => r.defective_chips) rs k)
                (groupSum key (fun r => r.produced_chips) rs k) ∧
      (groupSum key (fun r => r.produced_chips) rs k ≠ 0 →
        v = PctVal.val (round2
          ((groupSum key (fun r => r.defective_chips) rs k : ℚ)
            / (groupSum key (fun r => r.produced_chips) rs k : ℚ) * 100)))) ∧
    (∀ key : Record → Nat, ∀ k, k ∈ rs.map key →
      ∃ v, (k, v) ∈ breakdownBy key rs) := by
  refine ⟨rfl, ?_, ?_⟩
  · intro key k v hmem
    rcases List.mem_map.mp hmem with ⟨k2, hk2, heq⟩
    have hk : k2 = k := congrArg Prod.fst heq
    subst hk
    have hv : pctOf (groupSum key (fun r => r.defective_chips) rs k2)
        (groupSum key (fun r => r.produced_chips) rs k2) = v :=
      congrArg Prod.snd heq
    refine ⟨(mem_sortedKeys _ _).mp hk2, hv.symm, ?_⟩
    intro hp
    rw [← hv]
    simp only [pctOf, if_neg hp]
  · intro key k hk
    exact ⟨_, List.mem_map.mpr ⟨k, (mem_sortedKeys _ _).mpr hk, rfl⟩⟩

/-- Witness for C5 at the worked scenario: wafer size 200 occurs in the
input and its breakdown value is the rounded `9 / 230 * 100`, 3.91. -/
theorem C5_category_breakdowns_witness :
    (200 : Nat) ∈ c7rs.map (fun r => r.wafer_size) ∧
    PctVal.val (391 / 100)
      = PctVal.val (round2
          ((groupSum (fun r => r.wafer_size) (fun r => r.defective_chips) c7rs 200 : ℚ)
            / (groupSum (fun r => r.wafer_size) (fun r => r.produced_chips) c7rs 200 : ℚ)
            * 100)) := by
  have h := (C5_category_breakdowns c7rs).2.1 (fun r => r.wafer_size) 200
      (PctVal.val (391 / 100)) (by decide)
  exact ⟨h.1, h.2.2 (by decide)⟩

/-- Claim C6: for a non-empty Daily Aggregate, `calculate_statistics` is
the pair of the arithmetic mean of the `produced_chips` column and the
population standard deviation (carried as its square: the sum of squared
deviations from the mean divided by N, not by N - 1). -/
theorem C6_mean_and_population_std (g : List AggRow) (_h : g ≠ []) :
    (calculate_statistics g).1 = (producedColumn g).sum / (g.length : ℚ) ∧
    (calculate_statistics g).2
      = ((producedColumn g).map
          (fun x => (x - (producedColumn g).sum / (g.length : ℚ)) ^ 2)).sum
        / (g.length : ℚ) := by
  have hlen : (producedColumn g).length = g.length := List.length_map _ _
  constructor
  · show npMean (producedColumn g) = _
    rw [npMean, hlen]
  · show npVariance (producedColumn g) = _
    simp only [npVariance, npMean, hlen]

/-- Witness for C6 at the worked scenario (mean 115, variance 1225). -/
theorem C6_mean_and_population_std_witness :
    (calculate_statistics (process_data c7rs)).1
        = (producedColumn (process_data c7rs)).sum / ((process_data c7rs).length : ℚ) ∧
    (calculate_statistics (process_data c7rs)).2
        = ((producedColumn (process_data c7rs)).map
            (fun x => (x - (producedColumn (process_data c7rs)).sum
                / ((process_data c7rs).length : ℚ)) ^ 2)).sum
          / ((process_data c7rs).length : ℚ) :=
  C6_mean_and_population_std (process_data c7rs) (by decide)

/-- Claim C10: the breakdowns of `additional_analysis` are total even for a
category group whose produced sum is 0: the unguarded division yields the
non-raising IEEE value NaN when the defective sum is 0 too, and +infinity
otherwise, never an error or an explicit sentinel. -/
theorem C10_zero_production_category (rs : List Record) (key : Record → Nat)
    (k : Nat) (v : PctVal) (hmem : (k, v) ∈ breakdownBy key rs)
    (hp : groupSum key (fun r => r.produced_chips) rs k = 0) :
    (groupSum key (fun r => r.defective_chips) rs k = 0 → v = PctVal.undef) ∧
    (groupSum key (fun r => r.defective_chips) rs k ≠ 0 → v = PctVal.inf) := by
  rcases List.mem_map.mp hmem with ⟨k2, hk2, heq⟩
  have hk : k2 = k := congrArg Prod.fst heq
  subst hk
  have hv : pctOf (groupSum key (fun r => r.defective_chips) rs k2)
      (groupSum key (fun r => r.produced_chips) rs k2) = v :=
    congrArg Prod.snd heq
  constructor
  · intro hd
    rw [← hv]
    simp only [pctOf, if_pos hp, if_pos hd]
  · intro hd
    rw [← hv]
    simp only [pctOf, if_pos hp, if_neg hd]

/-- Witness for C10: a wafer-size breakdown with a `0 / 0` group (NaN) and
a `5 / 0` group (+infinity), neither raising. -/
theorem C10_zero_production_category_witness :
    breakdownBy (fun r => r.wafer_size) c10rs
        = [(200, PctVal.undef), (300, PctVal.inf)] ∧
    groupSum (fun r => r.wafer_size) (fun r => r.produced_chips) c10rs 300 = 0 ∧
    PctVal.inf = PctVal.inf :=
  ⟨by decide, by decide,
   (C10_zero_production_category c10rs (fun r => r.wafer_size) 300 PctVal.inf
      (by decide) (by decide)).2 (by decide)⟩

end SemiconductorAnalysis
